import Mathlib

/-!
Verification of the lexical-scope core (`src/eval/scope.rs`).

The Rust code stores each variable in a `Slot = Arc<RefCell<Value>>`.  We give
a shallow embedding with an explicit heap: a `Store` is the list of cells
allocated so far, and a slot handle is the address of its cell, so cloning a
handle (an `Arc::clone`) copies the address while the cell is shared.  A cell
created by `def_const` has a leaked shared borrow, which permanently denies
`borrow_mut`; we record this as a `locked` flag on the cell that makes every
write fail, while reads (shared borrows) still succeed.

`Scope` wraps a `BTreeMap<EcoString, Slot>`, embedded here as an association
list kept sorted by key: insertion replaces an existing binding, lookups find
the unique entry, and iteration is in ascending name order.  `Scopes` is the
scope stack: the active scope `top`, the `Vec` of suspended scopes (most
recently pushed last, mirrored here by pushing at the end of the list), and an
optional read-only base scope.  `Scopes::exit` panics on an empty stack; the
embedding returns `Option` with `none` for the panic branch.

The value type is a parameter `V` throughout: the evaluator's `Value` is
opaque to this core.
-/

/-- The contents of one `RefCell<Value>`: the stored value, and whether a
shared borrow was leaked at creation (`Scope::def_const`), permanently denying
mutable borrows of this cell. -/
structure Cell (V : Type) where
  value : V
  locked : Bool
  deriving Repr, DecidableEq

/-- The heap of allocated cells; an address indexes into this list. -/
abbrev Store (V : Type) := List (Cell V)

/-- A slot handle (`Arc<RefCell<Value>>`): the address of the shared cell.
Copying the handle (`Arc::clone`, or `Clone` on a scope) copies the address,
so all copies alias the same cell. -/
abbrev Slot := Nat

/-- Allocate a fresh cell (`Arc::new(RefCell::new(value))`), locked when the
creation-time borrow is leaked.  Returns the new store and the handle. -/
def allocSlot (st : Store V) (v : V) (locked : Bool) : Store V × Slot :=
  (st ++ [⟨v, locked⟩], st.length)

/-- Read through a slot handle (`slot.borrow()`).  A shared borrow always
succeeds, even on a locked cell; `none` only for a dangling address, which
the API never produces. -/
def readSlot (st : Store V) (s : Slot) : Option V :=
  (st[s]?).map Cell.value

/-- Write through a slot handle (`slot.borrow_mut() = w`).  On a locked cell
the mutable borrow fails (the leaked shared borrow is still live), modelled
as `none`; otherwise the cell's value is replaced. -/
def writeSlot (st : Store V) (s : Slot) (w : V) : Option (Store V) :=
  match st[s]? with
  | none => none
  | some c => if c.locked then none else some (st.set s ⟨w, false⟩)

/-- Insert into an association list sorted by key, replacing an existing
binding (`BTreeMap::insert`). -/
def sortedInsert (k : String) (v : α) : List (String × α) → List (String × α)
  | [] => [(k, v)]
  | (k', v') :: rest =>
    if k < k' then (k, v) :: (k', v') :: rest
    else if k = k' then (k, v) :: rest
    else (k', v') :: sortedInsert k v rest

/-- Lookup in an association list (`BTreeMap::get`). -/
def sortedLookup (k : String) : List (String × α) → Option α
  | [] => none
  | (k', v') :: rest => if k = k' then some v' else sortedLookup k rest

/-- `Scope`: the mapping from names to slots (`BTreeMap<EcoString, Slot>`,
embedded as a sorted association list). -/
structure Scope where
  values : List (String × Slot)
  deriving Repr, DecidableEq

/-- `Scope::new` / `Scope::default`: the empty scope. -/
def Scope.new : Scope := ⟨[]⟩

/-- `Scope::get`: look up the slot of a variable in this scope only. -/
def Scope.get (sc : Scope) (var : String) : Option Slot :=
  sortedLookup var sc.values

/-- `Scope::def_slot`: bind an existing slot under `var`, replacing any
previous binding of `var` in this scope. -/
def Scope.def_slot (sc : Scope) (var : String) (slot : Slot) : Scope :=
  ⟨sortedInsert var slot sc.values⟩

/-- `Scope::def_mut`: allocate a fresh mutable cell holding `value` and bind
its handle under `var`. -/
def Scope.def_mut (sc : Scope) (st : Store V) (var : String) (value : V) :
    Scope × Store V :=
  let p := allocSlot st value false
  (sc.def_slot var p.2, p.1)

/-- `Scope::def_const`: allocate a fresh cell holding `value`, leak a shared
borrow of it (`std::mem::forget(cell.borrow())`) so it can never be borrowed
mutably again, and bind its handle under `var`. -/
def Scope.def_const (sc : Scope) (st : Store V) (var : String) (value : V) :
    Scope × Store V :=
  let p := allocSlot st value true
  (sc.def_slot var p.2, p.1)

/-- `Scope::iter`: all definitions, in the `BTreeMap`'s ascending name
order. -/
def Scope.iter (sc : Scope) : List (String × Slot) :=
  sc.values

/-- Derived `Clone` for `Scope`: clones the map, cloning each `Arc` handle;
an `Arc::clone` shares the cell, so the clone holds the same addresses. -/
def Scope.clone (sc : Scope) : Scope := sc

/-- `Scopes`: the scope stack.  `top` is the active scope, `scopes` the stack
of suspended scopes (most recently suspended last, as in the `Vec`), `base`
the optional externally-owned fallback scope. -/
structure Scopes where
  top : Scope
  scopes : List Scope
  base : Option Scope
  deriving Repr, DecidableEq

/-- `Scopes::new`: empty active scope, empty stack, the given base. -/
def Scopes.new (base : Option Scope) : Scopes :=
  ⟨Scope.new, [], base⟩

/-- `Scopes::enter`: suspend the active scope onto the stack and install a
fresh empty active scope (`std::mem::take`). -/
def Scopes.enter (s : Scopes) : Scopes :=
  { s with top := Scope.new, scopes := s.scopes ++ [s.top] }

/-- `Scopes::exit`: pop the most recently suspended scope back into `top`.
The source panics (`.expect("no pushed scope")`) when the stack is empty;
that branch is `none` here. -/
def Scopes.exit (s : Scopes) : Option Scopes :=
  match s.scopes.getLast? with
  | none => none
  | some t => some { s with top := t, scopes := s.scopes.dropLast }

/-- The chain of scopes that `Scopes::get` consults, in order: the active
scope, then the suspended scopes most recently suspended first
(`self.scopes.iter().rev()`), then the base scope if present. -/
def Scopes.chain (s : Scopes) : List Scope :=
  s.top :: (s.scopes.reverse ++ s.base.toList)

/-- `Scopes::get`: the slot of the first scope in the chain that binds
`var`. -/
def Scopes.get (s : Scopes) (var : String) : Option Slot :=
  s.chain.findSome? (fun sc => sc.get var)

/-- `Scopes::def_mut`: define in the active scope only. -/
def Scopes.def_mut (s : Scopes) (st : Store V) (var : String) (value : V) :
    Scopes × Store V :=
  let p := s.top.def_mut st var value
  ({ s with top := p.1 }, p.2)

/-- `Scopes::def_const`: define in the active scope only. -/
def Scopes.def_const (s : Scopes) (st : Store V) (var : String) (value : V) :
    Scopes × Store V :=
  let p := s.top.def_const st var value
  ({ s with top := p.1 }, p.2)

/-- `Scopes::def_slot`: define in the active scope only. -/
def Scopes.def_slot (s : Scopes) (var : String) (slot : Slot) : Scopes :=
  { s with top := s.top.def_slot var slot }

/-- Derived `Clone` for `Scopes`: clones the scopes, which clone their `Arc`
handles; the clone resolves every name to the same cell addresses. -/
def Scopes.clone (s : Scopes) : Scopes := s

/-! ### Store lemmas -/

theorem getElem?_some_lt {st : Store V} {s : Slot} {c : Cell V}
    (h : st[s]? = some c) : s < st.length := by
  rcases List.getElem?_eq_some.mp h with ⟨hlt, _⟩
  exact hlt

theorem readSlot_alloc (st : Store V) (v : V) (lk : Bool) :
    readSlot (allocSlot st v lk).1 (allocSlot st v lk).2 = some v := by
  simp [readSlot, allocSlot, List.getElem?_concat_length]

theorem getElem?_alloc (st : Store V) (v : V) (lk : Bool) :
    (allocSlot st v lk).1[st.length]? = some ⟨v, lk⟩ := by
  simp [allocSlot, List.getElem?_concat_length]

theorem alloc_preserves (st : Store V) (v : V) (lk : Bool) {s : Slot} {c : Cell V}
    (h : st[s]? = some c) : (allocSlot st v lk).1[s]? = some c := by
  rw [allocSlot, List.getElem?_append_left (getElem?_some_lt h)]
  exact h

theorem writeSlot_some {st st' : Store V} {s : Slot} {w : V}
    (h : writeSlot st s w = some st') :
    ∃ c : Cell V, st[s]? = some c ∧ c.locked = false ∧ st' = st.set s ⟨w, false⟩ := by
  unfold writeSlot at h
  cases hc : st[s]? with
  | none => rw [hc] at h; exact absurd h (by simp)
  | some c =>
    rw [hc] at h
    by_cases hl : c.locked = true
    · simp [hl] at h
    · simp [hl] at h
      exact ⟨c, rfl, by simpa using hl, h.symm⟩

theorem writeSlot_locked {st : Store V} {s : Slot} {c : Cell V}
    (h : st[s]? = some c) (hl : c.locked = true) (w : V) :
    writeSlot st s w = none := by
  simp [writeSlot, h, hl]

theorem writeSlot_unlocked {st : Store V} {s : Slot} {c : Cell V}
    (h : st[s]? = some c) (hl : c.locked = false) (w : V) :
    writeSlot st s w = some (st.set s ⟨w, false⟩) := by
  simp [writeSlot, h, hl]

theorem readSlot_write_self {st st' : Store V} {s : Slot} {w : V}
    (h : writeSlot st s w = some st') : readSlot st' s = some w := by
  obtain ⟨c, hc, _, rfl⟩ := writeSlot_some h
  simp [readSlot, List.getElem?_set_self (getElem?_some_lt hc)]

theorem write_preserves {st st' : Store V} {a s : Slot} {w : V} {c : Cell V}
    (h : writeSlot st a w = some st') (hs : st[s]? = some c)
    (hl : c.locked = true) : st'[s]? = some c := by
  obtain ⟨ca, hca, hlk, rfl⟩ := writeSlot_some h
  by_cases he : a = s
  · subst he
    rw [hca] at hs
    cases hs
    rw [hlk] at hl
    exact absurd hl (by simp)
  · rw [List.getElem?_set_ne he]
    exact hs

/-- The stores reachable from a given store through this core's API: slot
allocations (`def_mut` / `def_const`) and successful writes through any slot
handle. -/
inductive StoreEvolves : Store V → Store V → Prop
  | refl (st : Store V) : StoreEvolves st st
  | alloc {st st' : Store V} (v : V) (lk : Bool) :
      StoreEvolves st st' → StoreEvolves st (allocSlot st' v lk).1
  | write {st st' st'' : Store V} {s : Slot} {w : V} :
      StoreEvolves st st' → writeSlot st' s w = some st'' → StoreEvolves st st''

theorem locked_cell_stable {st st' : Store V} (hev : StoreEvolves st st')
    {s : Slot} {c : Cell V} (h : st[s]? = some c) (hl : c.locked = true) :
    st'[s]? = some c := by
  induction hev with
  | refl => exact h
  | alloc v lk _ ih => exact alloc_preserves _ v lk ih
  | write _ hw ih => exact write_preserves hw ih hl

/-! ### Sorted association list lemmas -/

theorem sortedLookup_insert_self (k : String) (v : α) (l : List (String × α)) :
    sortedLookup k (sortedInsert k v l) = some v := by
  induction l with
  | nil => simp [sortedInsert, sortedLookup]
  | cons p rest ih =>
    obtain ⟨k', v'⟩ := p
    by_cases h1 : k < k'
    · simp [sortedInsert, h1, sortedLookup]
    · by_cases h2 : k = k'
      · simp [sortedInsert, h1, h2, sortedLookup]
      · simp [sortedInsert, h1, h2, sortedLookup, ih]

theorem sortedLookup_insert_ne (k m : String) (v : α) (l : List (String × α))
    (h : m ≠ k) : sortedLookup m (sortedInsert k v l) = sortedLookup m l := by
  induction l with
  | nil => simp [sortedInsert, sortedLookup, h]
  | cons p rest ih =>
    obtain ⟨k', v'⟩ := p
    by_cases h1 : k < k'
    · simp [sortedInsert, h1, sortedLookup, h]
    · by_cases h2 : k = k'
      · subst h2
        simp [sortedInsert, h1, sortedLookup, h]
      · by_cases h3 : m = k'
        · simp [sortedInsert, h1, h2, sortedLookup, h3]
        · simp [sortedInsert, h1, h2, sortedLookup, h3, ih]

/-- C1: a slot created by `Scope::def_const` is permanently locked: the new
binding resolves to it, reading it yields the creation-time value, and after
any further API evolution of the store every read still yields that value
while every write through any handle to the slot fails; re-exposing the same
slot under a different name via `def_slot` aliases the very same locked
cell. -/
theorem def_const_locks_slot (sc : Scope) (st : Store V) (var : String) (v : V) :
    ∃ sl : Slot,
      ((sc.def_const st var v).1).get var = some sl ∧
      readSlot (sc.def_const st var v).2 sl = some v ∧
      (∀ st' : Store V, StoreEvolves (sc.def_const st var v).2 st' →
        readSlot st' sl = some v ∧ ∀ w : V, writeSlot st' sl w = none) ∧
      (∀ (sc₂ : Scope) (n₂ : String), (sc₂.def_slot n₂ sl).get n₂ = some sl) := by
  refine ⟨st.length, ?_, ?_, ?_, ?_⟩
  · exact sortedLookup_insert_self var st.length sc.values
  · exact readSlot_alloc st v true
  · intro st' hev
    have hcell : st'[st.length]? = some ⟨v, true⟩ :=
      locked_cell_stable hev (getElem?_alloc st v true) rfl
    exact ⟨by simp [readSlot, hcell], fun w => writeSlot_locked hcell rfl w⟩
  · intro sc₂ n₂
    exact sortedLookup_insert_self n₂ st.length sc₂.values

/-! ### Enter / exit algebra -/

/-- Iterated `Scopes::enter`. -/
def Scopes.enterN : Nat → Scopes → Scopes
  | 0, s => s
  | n + 1, s => Scopes.enterN n s.enter

/-- Iterated `Scopes::exit`; `none` as soon as one call reaches the panic
branch. -/
def Scopes.exitN : Nat → Scopes → Option Scopes
  | 0, s => some s
  | n + 1, s => s.exit.bind (Scopes.exitN n)

theorem exit_enter (s : Scopes) : s.enter.exit = some s := by
  simp [Scopes.enter, Scopes.exit, List.getLast?_concat, List.dropLast_concat]

theorem exitN_succ_right (n : Nat) (s : Scopes) :
    Scopes.exitN (n + 1) s = (Scopes.exitN n s).bind Scopes.exit := by
  induction n generalizing s with
  | zero => cases h : s.exit <;> simp [Scopes.exitN, h]
  | succ n ih =>
    have l1 : Scopes.exitN (n + 1 + 1) s = s.exit.bind (Scopes.exitN (n + 1)) := rfl
    have l2 : Scopes.exitN (n + 1) s = s.exit.bind (Scopes.exitN n) := rfl
    rw [l1, l2]
    cases h : s.exit with
    | none => simp
    | some t => simp [ih t]

/-- C4: for every scope-stack state and every `N`, `N` calls to `enter`
followed by `N` calls to `exit` restore exactly the original state — the
same active scope and bindings, the same suspended stack, the same base. -/
theorem enterN_then_exitN (n : Nat) (s : Scopes) :
    Scopes.exitN n (Scopes.enterN n s) = some s := by
  induction n generalizing s with
  | zero => rfl
  | succ n ih =>
    have h1 : Scopes.enterN (n + 1) s = Scopes.enterN n s.enter := rfl
    rw [h1, exitN_succ_right, ih s.enter]
    simpa using exit_enter s

/-- C5: `Scopes::exit` reaches its fatal branch (the
`.expect("no pushed scope")` panic, `none` in the embedding) exactly when the
stack of suspended scopes is empty; whenever at least one suspended scope
exists, `exit` succeeds. -/
theorem exit_fatal_iff_no_suspended (s : Scopes) :
    s.exit = none ↔ s.scopes = [] := by
  rcases List.eq_nil_or_concat s.scopes with h | ⟨l, a, h⟩
  · simp [Scopes.exit, h]
  · simp [Scopes.exit, h, List.getLast?_concat]

/-- C3: after an outer `def_mut "x" := v1`, an `enter`, and an inner
`def_mut "x" := v2`, lookup of `"x"` returns the inner slot holding `v2`; the
inner slot is distinct from the outer one; `exit` restores exactly the outer
state, where `"x"` resolves to the original outer slot which still holds
`v1`, untouched by the inner definition. -/
theorem shadowing_roundtrip (s0 : Scopes) (st0 : Store V) (v1 v2 : V)
    (s1 s3 : Scopes) (st1 st3 : Store V)
    (h1 : Scopes.def_mut s0 st0 "x" v1 = (s1, st1))
    (h3 : Scopes.def_mut s1.enter st1 "x" v2 = (s3, st3)) :
    ∃ slOuter slInner : Slot,
      s1.get "x" = some slOuter ∧
      readSlot st1 slOuter = some v1 ∧
      s3.get "x" = some slInner ∧
      readSlot st3 slInner = some v2 ∧
      slInner ≠ slOuter ∧
      s3.exit = some s1 ∧
      readSlot st3 slOuter = some v1 := by
  have e1 : s1 = { s0 with top := s0.top.def_slot "x" st0.length } :=
    congrArg Prod.fst h1.symm
  have e2 : st1 = (allocSlot st0 v1 false).1 :=
    congrArg Prod.snd h1.symm
  have e3 : s3 = { s1.enter with top := Scope.new.def_slot "x" st1.length } :=
    congrArg Prod.fst h3.symm
  have e4 : st3 = (allocSlot st1 v2 false).1 :=
    congrArg Prod.snd h3.symm
  refine ⟨st0.length, st1.length, ?_, ?_, ?_, ?_, ?_, ?_, ?_⟩
  · rw [e1]
    simp [Scopes.get, Scopes.chain, List.findSome?_cons, Scope.def_slot,
      Scope.get, sortedLookup_insert_self]
  · rw [e2]
    exact readSlot_alloc st0 v1 false
  · rw [e3]
    simp [Scopes.get, Scopes.chain, List.findSome?_cons, Scope.def_slot,
      Scope.get, sortedLookup_insert_self]
  · rw [e4]
    exact readSlot_alloc st1 v2 false
  · rw [e2]
    simp [allocSlot]
  · rw [e3, e1]
    simp [Scopes.enter, Scopes.exit, List.getLast?_concat, List.dropLast_concat]
  · rw [e4, e2]
    have hcell : (allocSlot st0 v1 false).1[st0.length]? = some ⟨v1, false⟩ :=
      getElem?_alloc st0 v1 false
    have := alloc_preserves (allocSlot st0 v1 false).1 v2 false hcell
    simp [readSlot, this]

/-- Witness for C3: the concrete scenario `x = 1`, `enter`, `x = 2` over an
initially empty stack and store. -/
theorem shadowing_roundtrip_witness :
    ∃ slOuter slInner : Slot,
      (⟨⟨[("x", 0)]⟩, [], none⟩ : Scopes).get "x" = some slOuter ∧
      readSlot [(⟨1, false⟩ : Cell Nat)] slOuter = some 1 ∧
      (⟨⟨[("x", 1)]⟩, [⟨[("x", 0)]⟩], none⟩ : Scopes).get "x" = some slInner ∧
      readSlot [(⟨1, false⟩ : Cell Nat), ⟨2, false⟩] slInner = some 2 ∧
      slInner ≠ slOuter ∧
      (⟨⟨[("x", 1)]⟩, [⟨[("x", 0)]⟩], none⟩ : Scopes).exit =
        some ⟨⟨[("x", 0)]⟩, [], none⟩ ∧
      readSlot [(⟨1, false⟩ : Cell Nat), ⟨2, false⟩] slOuter = some 1 :=
  shadowing_roundtrip (Scopes.new none) [] 1 2
    ⟨⟨[("x", 0)]⟩, [], none⟩ ⟨⟨[("x", 1)]⟩, [⟨[("x", 0)]⟩], none⟩
    [⟨1, false⟩] [⟨1, false⟩, ⟨2, false⟩] rfl rfl

/-! ### First-match characterization of chained lookup -/

theorem findSome?_eq_some_first {f : α → Option β} {l : List α} {b : β} :
    l.findSome? f = some b ↔
      ∃ (i : Nat) (x : α), l[i]? = some x ∧ f x = some b ∧
        ∀ (j : Nat) (y : α), j < i → l[j]? = some y → f y = none := by
  induction l with
  | nil => simp [List.findSome?_nil]
  | cons a as ih =>
    rw [List.findSome?_cons]
    cases hfa : f a with
    | some c =>
      constructor
      · intro h
        refine ⟨0, a, List.getElem?_cons_zero, ?_, ?_⟩
        · rw [hfa]; exact h
        · intro j y hj
          exact absurd hj (Nat.not_lt_zero j)
      · rintro ⟨i, x, hx, hfx, hmin⟩
        cases i with
        | zero =>
          rw [List.getElem?_cons_zero] at hx
          cases hx
          rw [hfa] at hfx
          exact hfx
        | succ i =>
          have := hmin 0 a (Nat.succ_pos i) List.getElem?_cons_zero
          rw [hfa] at this
          exact absurd this (by simp)
    | none =>
      rw [ih]
      constructor
      · rintro ⟨i, x, hx, hfx, hmin⟩
        refine ⟨i + 1, x, ?_, hfx, ?_⟩
        · rw [List.getElem?_cons_succ]; exact hx
        · intro j y hj hy
          cases j with
          | zero =>
            rw [List.getElem?_cons_zero] at hy
            cases hy
            exact hfa
          | succ j =>
            rw [List.getElem?_cons_succ] at hy
            exact hmin j y (Nat.lt_of_succ_lt_succ hj) hy
      · rintro ⟨i, x, hx, hfx, hmin⟩
        cases i with
        | zero =>
          rw [List.getElem?_cons_zero] at hx
          cases hx
          rw [hfa] at hfx
          exact absurd hfx (by simp)
        | succ i =>
          rw [List.getElem?_cons_succ] at hx
          refine ⟨i, x, hx, hfx, ?_⟩
          intro j y hj hy
          refine hmin (j + 1) y (Nat.succ_lt_succ hj) ?_
          rw [List.getElem?_cons_succ]
          exact hy

/-- C2: `Scopes::get` consults the chain — active scope first, then the
suspended scopes from most recently suspended to least, then the base scope
if present — and returns the slot of the first scope in that order that binds
the name; it returns `none` exactly when no scope in the chain binds the
name. -/
theorem scopes_get_first_match (s : Scopes) (var : String) :
    s.chain = s.top :: (s.scopes.reverse ++ s.base.toList) ∧
    (s.get var = none ↔ ∀ sc ∈ s.chain, sc.get var = none) ∧
    (∀ sl : Slot, s.get var = some sl ↔
      ∃ (i : Nat) (sc : Scope), s.chain[i]? = some sc ∧ sc.get var = some sl ∧
        ∀ (j : Nat) (sc' : Scope), j < i → s.chain[j]? = some sc' →
          sc'.get var = none) := by
  refine ⟨rfl, ?_, ?_⟩
  · exact List.findSome?_eq_none_iff
  · intro sl
    exact findSome?_eq_some_first

/-! ### Sorted map invariant, membership and extensionality -/

/-- The `BTreeMap` invariant: the embedded association list is strictly
sorted by name, so every name occurs at most once. -/
def Scope.WF (sc : Scope) : Prop :=
  sc.values.Pairwise (fun a b => a.1 < b.1)

theorem mem_sortedInsert {k : String} {v : α} {l : List (String × α)}
    {b : String × α} (h : b ∈ sortedInsert k v l) : b = (k, v) ∨ b ∈ l := by
  induction l with
  | nil => simpa [sortedInsert] using h
  | cons p rest ih =>
    obtain ⟨k', v'⟩ := p
    by_cases h1 : k < k'
    · simpa [sortedInsert, h1] using h
    · by_cases h2 : k = k'
      · rw [sortedInsert, if_neg h1, if_pos h2] at h
        rcases List.mem_cons.mp h with rfl | h
        · exact Or.inl rfl
        · exact Or.inr (List.mem_cons_of_mem _ h)
      · rw [sortedInsert, if_neg h1, if_neg h2] at h
        rcases List.mem_cons.mp h with rfl | h
        · exact Or.inr (List.mem_cons_self _ _)
        · rcases ih h with h3 | h3
          · exact Or.inl h3
          · exact Or.inr (List.mem_cons_of_mem _ h3)

theorem pairwise_sortedInsert {k : String} {v : α} {l : List (String × α)}
    (h : l.Pairwise (fun a b => a.1 < b.1)) :
    (sortedInsert k v l).Pairwise (fun a b => a.1 < b.1) := by
  induction l with
  | nil => simp [sortedInsert]
  | cons p rest ih =>
    obtain ⟨k', v'⟩ := p
    obtain ⟨hhead, htail⟩ := List.pairwise_cons.mp h
    by_cases h1 : k < k'
    · rw [sortedInsert, if_pos h1]
      refine List.Pairwise.cons ?_ h
      intro b hb
      rcases List.mem_cons.mp hb with rfl | hb
      · exact h1
      · exact lt_trans h1 (hhead b hb)
    · by_cases h2 : k = k'
      · rw [sortedInsert, if_neg h1, if_pos h2]
        subst h2
        exact List.Pairwise.cons hhead htail
      · rw [sortedInsert, if_neg h1, if_neg h2]
        refine List.Pairwise.cons ?_ (ih htail)
        intro b hb
        have hlt : k' < k := by
          rcases lt_trichotomy k k' with h3 | h3 | h3
          · exact absurd h3 h1
          · exact absurd h3 h2
          · exact h3
        rcases mem_sortedInsert hb with rfl | hb
        · exact hlt
        · exact hhead b hb

theorem sortedLookup_iff_mem {l : List (String × α)}
    (h : l.Pairwise (fun a b => a.1 < b.1)) {k : String} {v : α} :
    sortedLookup k l = some v ↔ (k, v) ∈ l := by
  induction l with
  | nil => simp [sortedLookup]
  | cons p rest ih =>
    obtain ⟨k', v'⟩ := p
    obtain ⟨hhead, htail⟩ := List.pairwise_cons.mp h
    by_cases hk : k = k'
    · subst hk
      constructor
      · intro hv
        rw [sortedLookup, if_pos rfl] at hv
        cases hv
        exact List.mem_cons_self _ _
      · intro hv
        rcases List.mem_cons.mp hv with heq | hmem
        · cases heq
          rw [sortedLookup, if_pos rfl]
        · exact absurd (hhead _ hmem) (lt_irrefl k)
    · have hmem : ((k, v) ∈ (k', v') :: rest) ↔ (k, v) ∈ rest := by
        simp [List.mem_cons, Prod.ext_iff, hk]
      rw [hmem, ← ih htail, sortedLookup, if_neg hk]

theorem sorted_ext {l₁ l₂ : List (String × α)}
    (h₁ : l₁.Pairwise (fun a b => a.1 < b.1))
    (h₂ : l₂.Pairwise (fun a b => a.1 < b.1))
    (h : ∀ k, sortedLookup k l₁ = sortedLookup k l₂) : l₁ = l₂ := by
  induction l₁ generalizing l₂ with
  | nil =>
    cases l₂ with
    | nil => rfl
    | cons p rest =>
      obtain ⟨k', v'⟩ := p
      have := h k'
      rw [sortedLookup, sortedLookup, if_pos rfl] at this
      exact absurd this (by simp)
  | cons p₁ rest₁ ih =>
    obtain ⟨k₁, v₁⟩ := p₁
    cases l₂ with
    | nil =>
      have := h k₁
      rw [sortedLookup, sortedLookup, if_pos rfl] at this
      exact absurd this (by simp)
    | cons p₂ rest₂ =>
      obtain ⟨k₂, v₂⟩ := p₂
      obtain ⟨hh₁, ht₁⟩ := List.pairwise_cons.mp h₁
      obtain ⟨hh₂, ht₂⟩ := List.pairwise_cons.mp h₂
      have m1 : (k₁, v₁) ∈ (k₂, v₂) :: rest₂ := by
        rw [← sortedLookup_iff_mem h₂, ← h k₁, sortedLookup, if_pos rfl]
      have m2 : (k₂, v₂) ∈ (k₁, v₁) :: rest₁ := by
        rw [← sortedLookup_iff_mem h₁, h k₂, sortedLookup, if_pos rfl]
      have hk : k₁ = k₂ ∧ v₁ = v₂ := by
        rcases List.mem_cons.mp m1 with he | hm1
        · exact ⟨(Prod.ext_iff.mp he).1, (Prod.ext_iff.mp he).2⟩
        · rcases List.mem_cons.mp m2 with he2 | hm2
          · exact ⟨(Prod.ext_iff.mp he2).1.symm, (Prod.ext_iff.mp he2).2.symm⟩
          · exact absurd (lt_trans (hh₂ _ hm1) (hh₁ _ hm2)) (lt_irrefl k₂)
      obtain ⟨rfl, rfl⟩ := hk
      have htails : ∀ k, sortedLookup k rest₁ = sortedLookup k rest₂ := by
        intro k
        by_cases hk2 : k = k₁
        · subst hk2
          have n1 : sortedLookup k rest₁ = none := by
            cases hl : sortedLookup k rest₁ with
            | none => rfl
            | some v =>
              exact absurd (hh₁ _ ((sortedLookup_iff_mem ht₁).mp hl))
                (lt_irrefl k)
          have n2 : sortedLookup k rest₂ = none := by
            cases hl : sortedLookup k rest₂ with
            | none => rfl
            | some v =>
              exact absurd (hh₂ _ ((sortedLookup_iff_mem ht₂).mp hl))
                (lt_irrefl k)
          rw [n1, n2]
        · have := h k
          rwa [sortedLookup, sortedLookup, if_neg hk2, if_neg hk2] at this
      rw [ih ht₁ ht₂ htails]

theorem wf_new : Scope.new.WF := by
  simp [Scope.new, Scope.WF]

theorem wf_def_slot {sc : Scope} (h : sc.WF) (var : String) (slot : Slot) :
    (sc.def_slot var slot).WF :=
  pairwise_sortedInsert h

theorem wf_def_mut {sc : Scope} (h : sc.WF) (st : Store V) (var : String)
    (value : V) : (sc.def_mut st var value).1.WF :=
  pairwise_sortedInsert h

theorem wf_def_const {sc : Scope} (h : sc.WF) (st : Store V) (var : String)
    (value : V) : (sc.def_const st var value).1.WF :=
  pairwise_sortedInsert h

/-- C6: redefining a name already bound to `sOld` (holding `vOld`) via
`def_mut`, `def_const` or `def_slot` makes the new slot the one reachable
under that name, while the old slot itself is untouched — a handle captured
before the redefinition still reads `vOld` — and the bindings of all other
names are unchanged. -/
theorem redefine_replaces_binding (sc : Scope) (st : Store V) (n : String)
    (sOld : Slot) (vOld : V)
    (h1 : sc.get n = some sOld) (h2 : readSlot st sOld = some vOld) :
    (∀ vNew : V,
      (sc.def_mut st n vNew).1.get n = some st.length ∧
      st.length ≠ sOld ∧
      readSlot (sc.def_mut st n vNew).2 sOld = some vOld ∧
      ∀ m : String, m ≠ n → (sc.def_mut st n vNew).1.get m = sc.get m) ∧
    (∀ vNew : V,
      (sc.def_const st n vNew).1.get n = some st.length ∧
      st.length ≠ sOld ∧
      readSlot (sc.def_const st n vNew).2 sOld = some vOld ∧
      ∀ m : String, m ≠ n → (sc.def_const st n vNew).1.get m = sc.get m) ∧
    (∀ sNew : Slot,
      (sc.def_slot n sNew).get n = some sNew ∧
      readSlot st sOld = some vOld ∧
      ∀ m : String, m ≠ n → (sc.def_slot n sNew).get m = sc.get m) := by
  obtain ⟨c, hc, hcv⟩ : ∃ c, st[sOld]? = some c ∧ c.value = vOld := by
    unfold readSlot at h2
    cases hc : st[sOld]? with
    | none => rw [hc] at h2; exact absurd h2 (by simp)
    | some c => rw [hc] at h2; exact ⟨c, rfl, by simpa using h2⟩
  have hlt : sOld < st.length := getElem?_some_lt hc
  have hne : st.length ≠ sOld := (Nat.ne_of_lt hlt).symm
  have hre : ∀ (v : V) (lk : Bool),
      readSlot (allocSlot st v lk).1 sOld = some vOld := by
    intro v lk
    have := alloc_preserves st v lk hc
    simp [readSlot, this, hcv]
  refine ⟨?_, ?_, ?_⟩
  · intro vNew
    exact ⟨sortedLookup_insert_self n st.length sc.values, hne, hre vNew false,
      fun m hm => sortedLookup_insert_ne n m st.length sc.values hm⟩
  · intro vNew
    exact ⟨sortedLookup_insert_self n st.length sc.values, hne, hre vNew true,
      fun m hm => sortedLookup_insert_ne n m st.length sc.values hm⟩
  · intro sNew
    exact ⟨sortedLookup_insert_self n sNew sc.values, h2,
      fun m hm => sortedLookup_insert_ne n m sNew sc.values hm⟩

/-- Witness for C6: a scope binding `"x"` to slot `0`, which holds `5` in a
one-cell store. -/
theorem redefine_replaces_binding_witness :
    (∀ vNew : Nat,
      ((⟨[("x", 0)]⟩ : Scope).def_mut [⟨5, false⟩] "x" vNew).1.get "x" =
        some 1 ∧
      1 ≠ 0 ∧
      readSlot ((⟨[("x", 0)]⟩ : Scope).def_mut [⟨5, false⟩] "x" vNew).2 0 =
        some 5 ∧
      ∀ m : String, m ≠ "x" →
        ((⟨[("x", 0)]⟩ : Scope).def_mut [⟨5, false⟩] "x" vNew).1.get m =
          (⟨[("x", 0)]⟩ : Scope).get m) ∧
    (∀ vNew : Nat,
      ((⟨[("x", 0)]⟩ : Scope).def_const [⟨5, false⟩] "x" vNew).1.get "x" =
        some 1 ∧
      1 ≠ 0 ∧
      readSlot ((⟨[("x", 0)]⟩ : Scope).def_const [⟨5, false⟩] "x" vNew).2 0 =
        some 5 ∧
      ∀ m : String, m ≠ "x" →
        ((⟨[("x", 0)]⟩ : Scope).def_const [⟨5, false⟩] "x" vNew).1.get m =
          (⟨[("x", 0)]⟩ : Scope).get m) ∧
    (∀ sNew : Slot,
      ((⟨[("x", 0)]⟩ : Scope).def_slot "x" sNew).get "x" = some sNew ∧
      readSlot [(⟨5, false⟩ : Cell Nat)] 0 = some 5 ∧
      ∀ m : String, m ≠ "x" →
        ((⟨[("x", 0)]⟩ : Scope).def_slot "x" sNew).get m =
          (⟨[("x", 0)]⟩ : Scope).get m) :=
  redefine_replaces_binding ⟨[("x", 0)]⟩ [⟨5, false⟩] "x" 0 5 rfl rfl

/-- C7: on a well-formed scope, `iter` enumerates exactly the current
bindings — strictly sorted in ascending name order, each name once, a pair
is listed iff `get` returns it — and the enumeration is independent of
definition history: two well-formed scopes with the same lookup function
have identical enumerations. -/
theorem iter_enumerates_sorted (sc₁ sc₂ : Scope) (h₁ : sc₁.WF) (h₂ : sc₂.WF) :
    sc₁.iter.Pairwise (fun a b => a.1 < b.1) ∧
    (sc₁.iter.map Prod.fst).Nodup ∧
    (∀ (n : String) (sl : Slot), (n, sl) ∈ sc₁.iter ↔ sc₁.get n = some sl) ∧
    ((∀ n : String, sc₁.get n = sc₂.get n) → sc₁.iter = sc₂.iter) := by
  refine ⟨h₁, ?_, ?_, ?_⟩
  · exact List.pairwise_map.mpr (h₁.imp fun hab => ne_of_lt hab)
  · intro n sl
    exact (sortedLookup_iff_mem h₁).symm
  · intro h
    exact sorted_ext h₁ h₂ h

/-- Witness for C7: inserting `"b"` then `"a"`, or `"a"` then `"b"`, yields
the same enumeration, sorted as `a` before `b`. -/
theorem iter_enumerates_sorted_witness :
    ((Scope.new.def_slot "b" 1).def_slot "a" 0).iter.Pairwise
      (fun a b => a.1 < b.1) ∧
    (((Scope.new.def_slot "b" 1).def_slot "a" 0).iter.map Prod.fst).Nodup ∧
    (∀ (n : String) (sl : Slot),
      (n, sl) ∈ ((Scope.new.def_slot "b" 1).def_slot "a" 0).iter ↔
        ((Scope.new.def_slot "b" 1).def_slot "a" 0).get n = some sl) ∧
    ((∀ n : String,
        ((Scope.new.def_slot "b" 1).def_slot "a" 0).get n =
          ((Scope.new.def_slot "a" 0).def_slot "b" 1).get n) →
      ((Scope.new.def_slot "b" 1).def_slot "a" 0).iter =
        ((Scope.new.def_slot "a" 0).def_slot "b" 1).iter) :=
  iter_enumerates_sorted ((Scope.new.def_slot "b" 1).def_slot "a" 0)
    ((Scope.new.def_slot "a" 0).def_slot "b" 1)
    (wf_def_slot (wf_def_slot wf_new "b" 1) "a" 0)
    (wf_def_slot (wf_def_slot wf_new "a" 0) "b" 1)

/-! ### Hash identity -/

/-- The (name, current value) pairs of a scope: each binding's name together
with the value currently stored behind its slot (`value.borrow()`), in the
map's iteration order. -/
def Scope.valuePairs (sc : Scope) (st : Store V) : List (String × Option V) :=
  sc.values.map fun p => (p.1, readSlot st p.2)

/-- The data `impl Hash for Scope` feeds to the hasher: first the number of
bindings (`self.values.len().hash(state)`), then, in ascending name order,
each name and the borrowed current value of its slot. -/
def Scope.hashTrace (sc : Scope) (st : Store V) :
    Nat × List (String × Option V) :=
  (sc.values.length, sc.valuePairs st)

/-- Modelled from the spec: the source implements only `Hash` for `Scope`,
no equality; the spec says a scope's equality identity "is a deterministic
function of its (name, current value) pairs".  Two scopes (each with its
store) are spec-equal when those pairs coincide. -/
def Scope.specEq (sc₁ : Scope) (st₁ : Store V) (sc₂ : Scope)
    (st₂ : Store V) : Prop :=
  sc₁.valuePairs st₁ = sc₂.valuePairs st₂

theorem sortedLookup_map_value (f : β → γ) (k : String)
    (l : List (String × β)) :
    sortedLookup k (l.map fun p => (p.1, f p.2)) = (sortedLookup k l).map f := by
  induction l with
  | nil => simp [sortedLookup]
  | cons p rest ih =>
    obtain ⟨k', v'⟩ := p
    by_cases hk : k = k'
    · simp [sortedLookup, hk]
    · simp [sortedLookup, hk, ih]

/-- C8: a well-formed scope's hash input — and hence its hash — and its
spec-level equality identity are a deterministic function of its
(name, current value) pairs: two scopes whose names and currently stored
values agree produce the same hasher trace and are spec-equal, regardless of
slot identity, lock state, or definition history. -/
theorem hash_determined_by_values (sc₁ sc₂ : Scope) (st₁ st₂ : Store V)
    (h₁ : sc₁.WF) (h₂ : sc₂.WF)
    (h : ∀ n : String, (sc₁.get n).map (fun sl => readSlot st₁ sl) =
      (sc₂.get n).map (fun sl => readSlot st₂ sl)) :
    sc₁.hashTrace st₁ = sc₂.hashTrace st₂ ∧ Scope.specEq sc₁ st₁ sc₂ st₂ := by
  have hwf₁ : (sc₁.valuePairs st₁).Pairwise (fun a b => a.1 < b.1) :=
    List.pairwise_map.mpr (h₁.imp fun hab => hab)
  have hwf₂ : (sc₂.valuePairs st₂).Pairwise (fun a b => a.1 < b.1) :=
    List.pairwise_map.mpr (h₂.imp fun hab => hab)
  have hpairs : sc₁.valuePairs st₁ = sc₂.valuePairs st₂ := by
    refine sorted_ext hwf₁ hwf₂ ?_
    intro k
    rw [Scope.valuePairs, Scope.valuePairs, sortedLookup_map_value,
      sortedLookup_map_value]
    exact h k
  refine ⟨?_, hpairs⟩
  rw [Scope.hashTrace, Scope.hashTrace, hpairs]
  have hlen : sc₁.values.length = sc₂.values.length := by
    have := congrArg List.length hpairs
    simpa [Scope.valuePairs] using this
  rw [hlen]

/-- Witness for C8: two scopes binding `"x"` to different slots in different
stores — different addresses, different lock states, different junk cells —
but the same current value `7`. -/
theorem hash_determined_by_values_witness :
    (⟨[("x", 0)]⟩ : Scope).hashTrace [(⟨7, false⟩ : Cell Nat)] =
      (⟨[("x", 1)]⟩ : Scope).hashTrace [⟨9, true⟩, ⟨7, true⟩] ∧
    Scope.specEq ⟨[("x", 0)]⟩ [(⟨7, false⟩ : Cell Nat)] ⟨[("x", 1)]⟩
      [⟨9, true⟩, ⟨7, true⟩] :=
  hash_determined_by_values ⟨[("x", 0)]⟩ ⟨[("x", 1)]⟩ [⟨7, false⟩]
    [⟨9, true⟩, ⟨7, true⟩] (by simp [Scope.WF]) (by simp [Scope.WF])
    (by
      intro n
      by_cases hn : n = "x"
      · subst hn; rfl
      · simp [Scope.get, sortedLookup, hn])

/-- C9: cloning a scope (or a scope stack) copies slot handles, not values:
the clone resolves every name to the same cell address as the original, so a
write through the slot obtained from the clone is observed by a read through
the slot obtained from the original — they are the same cell. -/
theorem clone_shares_slots (sc : Scope) (ss : Scopes) (st st' : Store V)
    (n : String) (sl : Slot) (w : V)
    (h1 : sc.clone.get n = some sl) (h2 : writeSlot st sl w = some st') :
    (∀ m : String, sc.clone.get m = sc.get m) ∧
    (∀ m : String, ss.clone.get m = ss.get m) ∧
    sc.get n = some sl ∧
    readSlot st' sl = some w :=
  ⟨fun _ => rfl, fun _ => rfl, h1, readSlot_write_self h2⟩

/-- Witness for C9: a clone of a scope binding `"x"` to slot `0`; writing `4`
through that slot is seen by the original. -/
theorem clone_shares_slots_witness :
    (∀ m : String, (⟨[("x", 0)]⟩ : Scope).clone.get m =
      (⟨[("x", 0)]⟩ : Scope).get m) ∧
    (∀ m : String, (Scopes.new none).clone.get m = (Scopes.new none).get m) ∧
    (⟨[("x", 0)]⟩ : Scope).get "x" = some 0 ∧
    readSlot [(⟨4, false⟩ : Cell Nat)] 0 = some 4 :=
  clone_shares_slots ⟨[("x", 0)]⟩ (Scopes.new none) [⟨3, false⟩]
    [⟨4, false⟩] "x" 0 4 rfl rfl

/-- C10: `def_mut` installs a live handle to fresh mutable storage: lookup
of the name returns a slot that reads the defined value; writing a new value
through that slot succeeds, and afterwards every read through the slot —
from the binding's own later lookups or from any alias of the handle —
yields the written value. -/
theorem def_mut_live_handle (sc : Scope) (st : Store V) (n : String)
    (v w : V) :
    ∃ (sl : Slot) (st'' : Store V),
      (sc.def_mut st n v).1.get n = some sl ∧
      readSlot (sc.def_mut st n v).2 sl = some v ∧
      writeSlot (sc.def_mut st n v).2 sl w = some st'' ∧
      readSlot st'' sl = some w := by
  have hcell : (allocSlot st v false).1[st.length]? = some ⟨v, false⟩ :=
    getElem?_alloc st v false
  have hw : writeSlot (allocSlot st v false).1 st.length w =
      some ((allocSlot st v false).1.set st.length ⟨w, false⟩) :=
    writeSlot_unlocked hcell rfl w
  exact ⟨st.length, (allocSlot st v false).1.set st.length ⟨w, false⟩,
    sortedLookup_insert_self n st.length sc.values,
    readSlot_alloc st v false, hw, readSlot_write_self hw⟩
